import Mathlib

set_option maxRecDepth 40000

/-!
Verification of the bozo double-entry ledger storage engine.

The development shallowly embeds the Python sources `bozo/transaction.py`,
`bozo/storage.py` and (for the `init` command only) `bozo/cli.py`.
Strings handled by the account-path machinery are embedded as `List Char`
(`Str`), which matches Python `str` for the ASCII data the ledger operates
on.  The SQLite database file is embedded as an explicit `DB` record whose
row lists are kept in rowid (insertion) order, matching the scan order of
the underlying B-tree; the immutability triggers installed by `_init_db`
are embedded as boolean flags consulted by the raw UPDATE/DELETE
operations.  Python's `with conn:` block commits on success and rolls the
whole transaction back on an exception, so every storage operation is
embedded as a pure function returning `Except e DB`: an `.ok` result is
the committed state and an `.error` result leaves the caller with the
unchanged previous state (the rollback).
-/

deriving instance DecidableEq for Except

namespace Bozo

/-- Account names and paths, embedded as lists of characters
(Python `str` restricted to the ASCII range the ledger uses). -/
abbrev Str := List Char

/-- Python's `str.lower()` for one ASCII character.  Characters between
`A` and `Z` are shifted into `a`..`z` by indexing a lowercase alphabet;
all other characters are unchanged.  (Python also lowercases non-ASCII
letters; the ledger's account vocabulary is ASCII.) -/
def lowerChar (c : Char) : Char :=
  if 65 ≤ c.toNat ∧ c.toNat ≤ 90 then
    (("abcdefghijklmnopqrstuvwxyz").toList).getD (c.toNat - 65) c
  else c

/-- Python's `str.lower()` on a whole string. -/
def lowerStr (s : Str) : Str := s.map lowerChar

/-- ASCII whitespace recognised by Python's `str.strip()`. -/
def isSpaceChar (c : Char) : Bool :=
  c = ' ' || c = '\t' || c = '\n' || c = '\r' || c = '\x0b' || c = '\x0c'

/-- Python's `str.strip()`: remove leading and trailing whitespace. -/
def trimStr (s : Str) : Str :=
  (((s.dropWhile isSpaceChar).reverse).dropWhile isSpaceChar).reverse

/-- Python's `str.split(":")`: split on every colon, keeping empty
pieces, and producing at least one piece for every input. -/
def splitColon : Str → List Str
  | [] => [[]]
  | a :: as =>
    if a = ':' then [] :: splitColon as
    else
      match splitColon as with
      | [] => [[a]]
      | g :: gs => (a :: g) :: gs

/-- Python's `":".join(...)`. -/
def joinColon : List Str → Str
  | [] => []
  | [g] => g
  | g :: g2 :: gs => g ++ ':' :: joinColon (g2 :: gs)

/-- The `ACCOUNT_TYPES` dictionary of `transaction.py`: recognised root
segments mapped to account types. -/
def ACCOUNT_TYPES : List (Str × Str) :=
  [(("assets").toList, ("asset").toList),
   (("liabilities").toList, ("liability").toList),
   (("income").toList, ("income").toList),
   (("expenses").toList, ("expense").toList),
   (("capital").toList, ("capital").toList),
   (("drawings").toList, ("drawings").toList)]

/-- The two `ValueError` shapes raised by `parse_account_path`. -/
inductive ParseError where
  | invalidAccountName
  | invalidAccountRoot
deriving DecidableEq, Repr

/-- `parse_account_path` of `transaction.py`: lowercase the input, split
on `:`, strip every segment, reject an empty list or empty first
segment, reject an unrecognised root, and otherwise return the mapped
account type together with the full segment list. -/
def parse_account_path (name : Str) : Except ParseError (Str × List Str) :=
  match (splitColon (lowerStr name)).map trimStr with
  | [] => .error .invalidAccountName
  | root :: rest =>
    if root = [] then .error .invalidAccountName
    else
      match ACCOUNT_TYPES.lookup root with
      | none => .error .invalidAccountRoot
      | some t => .ok (t, root :: rest)

example : parse_account_path (("assets:cash").toList) =
    .ok (("asset").toList, [("assets").toList, ("cash").toList]) := by decide

example : parse_account_path (("assets:").toList) =
    .ok (("asset").toList, [("assets").toList, []]) := by decide

example : parse_account_path (("badroot:foo").toList) =
    .error .invalidAccountRoot := by decide

example : parse_account_path ((":foo").toList) =
    .error .invalidAccountName := by decide

example : parse_account_path (("Assets: Cash ").toList) =
    .ok (("asset").toList, [("assets").toList, ("cash").toList]) := by decide

/-! ## Data model

Python `Decimal` values are embedded as a signed coefficient together
with a power-of-ten exponent, exactly the internal representation of a
finite `Decimal`.  `storage.py` persists an amount as the TEXT column
value `str(d)` and reads it back with `Decimal(text)`; for finite
decimals this round trip restores the identical value, so the embedded
TEXT columns hold the `Dec` itself. -/

structure Dec where
  coeff : Int
  exp : Int
deriving DecidableEq, Repr

/-- The exact rational value of a decimal amount. -/
def Dec.val (d : Dec) : ℚ :=
  if 0 ≤ d.exp then (d.coeff : ℚ) * (10 : ℚ) ^ d.exp.toNat
  else (d.coeff : ℚ) / (10 : ℚ) ^ (-d.exp).toNat

/-- The `LineItem` dataclass of `transaction.py`. -/
structure LineItem where
  account : Str
  debit : Option Dec := none
  credit : Option Dec := none
  id : Option Nat := none
deriving DecidableEq, Repr

/-- The `JournalEntry` dataclass of `transaction.py`.  The timestamp is
carried as its `isoformat()` string, which is what `add` persists. -/
structure JournalEntry where
  description : String
  timestamp : String
  line_items : List LineItem := []
  id : Option Nat := none
deriving DecidableEq, Repr

/-- A row of the `accounts` table. -/
structure AccountRow where
  id : Nat
  name : Str
  type : Str
  parent_id : Option Nat
deriving DecidableEq, Repr

/-- A row of the `journal_entries` table. -/
structure JournalRow where
  id : Nat
  description : String
  timestamp : String
deriving DecidableEq, Repr

/-- A row of the `line_items` table. -/
structure LineItemRow where
  id : Nat
  journal_entry_id : Nat
  account : Str
  debit : Option Dec
  credit : Option Dec
deriving DecidableEq, Repr

/-- The four immutability triggers installed by `_init_db`, one flag per
`CREATE TRIGGER` statement. -/
structure Triggers where
  jeUpdate : Bool
  jeDelete : Bool
  liUpdate : Bool
  liDelete : Bool
deriving DecidableEq, Repr

/-- The SQLite database file.  Row lists are in rowid (insertion) order,
which is the order a full table scan returns; the `next…Id` counters are
the AUTOINCREMENT state of each table. -/
structure DB where
  journal_entries : List JournalRow
  line_items : List LineItemRow
  accounts : List AccountRow
  nextJournalId : Nat
  nextLineItemId : Nat
  nextAccountId : Nat
  triggers : Triggers
deriving DecidableEq, Repr

/-- A database file immediately after creation, before `_init_db` has
run: empty tables and no triggers. -/
def emptyDB : DB :=
  { journal_entries := [], line_items := [], accounts := []
    nextJournalId := 1, nextLineItemId := 1, nextAccountId := 1
    triggers := ⟨false, false, false, false⟩ }

/-- `TransactionStorage._init_db`: every `CREATE TABLE` / `CREATE
TRIGGER` statement carries `IF NOT EXISTS`, so on an existing store the
call changes nothing, and on a fresh file it installs the schema and the
four immutability triggers. -/
def _init_db (db : DB) : DB :=
  { db with triggers := ⟨true, true, true, true⟩ }

/-- `TransactionStorage.init_database(path)`: construct the storage
without requiring the file to exist and run `_init_db` on it.  The
argument is the store already present at the path, if any; note that the
function has no failure outcome. -/
def init_database (existing : Option DB) : DB :=
  _init_db (existing.getD emptyDB)

/-- `cmd_init` of `cli.py` (the `bozo init` command): if the database
file already exists, print a message and return exit code 1 without
touching the store; otherwise create it via `init_database`.  The result
is the exit code and the store present at the path afterwards.  (The
separate missing-folder check of `cmd_init` is orthogonal and not
modelled.) -/
def cmd_init (existing : Option DB) : Nat × DB :=
  match existing with
  | some db => (1, db)
  | none => (0, init_database none)

/-! ## Account creation (`_ensure_account`) -/

/-- `SELECT id FROM accounts WHERE name = ?` — first row by scan order;
the `UNIQUE` constraint on `name` makes it the only one. -/
def findAccount (accounts : List AccountRow) (name : Str) : Option AccountRow :=
  accounts.find? (fun a => decide (a.name = name))

/-- One iteration of the `_ensure_account` loop, for prefix length `i`:
skip if an account with the prefix name exists, otherwise insert it with
the parsed account type and the id of the immediately shorter prefix as
parent (none for the root, or if the parent lookup finds nothing). -/
def ensureStep (t : Str) (segments : List Str) (db : DB) (i : Nat) : DB :=
  match findAccount db.accounts (joinColon (segments.take i)) with
  | some _ => db
  | none =>
    { db with
      accounts := db.accounts ++
        [⟨db.nextAccountId, joinColon (segments.take i), t,
          if 1 < i then
            match findAccount db.accounts (joinColon (segments.take (i - 1))) with
            | some r => some r.id
            | none => none
          else none⟩]
      nextAccountId := db.nextAccountId + 1 }

/-- The `for i in range(1, len(segments) + 1)` loop of `_ensure_account`:
`ensureLoop t segments db n` has processed prefixes `1..n` in order. -/
def ensureLoop (t : Str) (segments : List Str) (db : DB) : Nat → DB
  | 0 => db
  | n + 1 => ensureStep t segments (ensureLoop t segments db n) (n + 1)

/-- `TransactionStorage._ensure_account`: lowercase the name, parse it
(which may raise), and materialise every prefix of the segment chain.
A raised `ValueError` aborts the enclosing transaction, which the
`Except` error models. -/
def _ensure_account (db : DB) (account_name : Str) : Except ParseError DB :=
  match parse_account_path (lowerStr account_name) with
  | .error e => .error e
  | .ok (t, segments) => .ok (ensureLoop t segments db segments.length)

/-! ## Adding entries (`add`) -/

/-- Failures that abort an `add` transaction: a `ValueError` from the
account parser, or the `CHECK` constraint of `line_items` (exactly one
of debit/credit non-null). -/
inductive AddError where
  | parse (e : ParseError)
  | checkViolation
deriving DecidableEq, Repr

/-- The first loop of `add`: `self._ensure_account(conn, item.account)`
for every line item, in order, on the shared connection. -/
def ensureAll (db : DB) : List LineItem → Except ParseError DB
  | [] => .ok db
  | item :: rest =>
    match _ensure_account db item.account with
    | .error e => .error e
    | .ok db1 => ensureAll db1 rest

/-- The second loop of `add`: insert every line item, lowercasing the
account and enforcing the table's `CHECK` constraint. -/
def insertLineItems (entry_id : Nat) (db : DB) : List LineItem → Except AddError DB
  | [] => .ok db
  | item :: rest =>
    if (item.debit.isSome && item.credit.isNone) ||
       (item.debit.isNone && item.credit.isSome) then
      insertLineItems entry_id
        { db with
          line_items := db.line_items ++
            [⟨db.nextLineItemId, entry_id, lowerStr item.account, item.debit, item.credit⟩]
          nextLineItemId := db.nextLineItemId + 1 } rest
    else .error .checkViolation

/-- `TransactionStorage.add`: ensure all accounts, insert the journal
entry row (assigning the next id), insert the line items, and commit.
The whole body runs inside one `with conn:` block, so any failure rolls
every inserted row back: an `.error` result leaves the store in the
caller's previous state. -/
def add (db : DB) (entry : JournalEntry) : Except AddError (DB × Nat) :=
  match ensureAll db entry.line_items with
  | .error e => .error (.parse e)
  | .ok db1 =>
    match insertLineItems db1.nextJournalId
        { db1 with
          journal_entries := db1.journal_entries ++
            [⟨db1.nextJournalId, entry.description, entry.timestamp⟩]
          nextJournalId := db1.nextJournalId + 1 } entry.line_items with
    | .error e => .error e
    | .ok db3 => .ok (db3, db1.nextJournalId)

/-! ## Reading entries -/

/-- `TransactionStorage._load_entry`: attach the line items of a journal
row (`SELECT * FROM line_items WHERE journal_entry_id = ?`, returned in
rowid scan order) and rebuild the dataclasses.  `Decimal(text)` restores
the stored decimal exactly. -/
def _load_entry (db : DB) (row : JournalRow) : JournalEntry :=
  { description := row.description
    timestamp := row.timestamp
    id := some row.id
    line_items :=
      (db.line_items.filter (fun li => decide (li.journal_entry_id = row.id))).map
        (fun li => ⟨li.account, li.debit, li.credit, some li.id⟩) }

/-- `TransactionStorage.get_by_id`: find the journal row with the id. -/
def get_by_id (db : DB) (entry_id : Nat) : Option JournalEntry :=
  match db.journal_entries.find? (fun r => decide (r.id = entry_id)) with
  | none => none
  | some row => some (_load_entry db row)

/-- Insertion step of the `ORDER BY timestamp DESC` sort: the new row is
placed after every already-placed row whose timestamp is not strictly
smaller.  TEXT values compare by `memcmp`, which for the UTF-8 strings
involved is the character-wise order of `String`. -/
def insertTsDesc (x : JournalRow) : List JournalRow → List JournalRow
  | [] => [x]
  | y :: ys =>
    if decide (y.timestamp < x.timestamp) then x :: y :: ys
    else y :: insertTsDesc x ys

/-- `ORDER BY timestamp DESC`, modelled as a stable sort over the rows
in scan order.  SQLite does not document the relative order of rows with
equal sort keys, so only tie-agnostic properties are claimed of the
results. -/
def sortTsDesc (rows : List JournalRow) : List JournalRow :=
  rows.foldl (fun acc r => insertTsDesc r acc) []

/-- `TransactionStorage.get_all`: every entry, ordered by timestamp
descending. -/
def get_all (db : DB) : List JournalEntry :=
  (sortTsDesc db.journal_entries).map (_load_entry db)

/-! ## `LIKE` and `get_by_account` -/

/-- SQLite's `LIKE` operator (no `ESCAPE` clause): `%` matches any
sequence, `_` any single character, and plain characters compare
ASCII-case-insensitively.  Structured on explicit fuel so that it
computes by kernel reduction; each recursive call shrinks pattern or
text, so `|pattern| + |text| + 1` fuel is exact. -/
def likeFuel : Nat → Str → Str → Bool
  | 0, _, _ => false
  | _ + 1, [], ts => ts.isEmpty
  | fuel + 1, p :: ps, ts =>
    if p = '%' then
      likeFuel fuel ps ts ||
        (match ts with
         | [] => false
         | _ :: ts2 => likeFuel fuel (p :: ps) ts2)
    else
      match ts with
      | [] => false
      | t :: ts2 =>
        if p = '_' then likeFuel fuel ps ts2
        else (lowerChar p = lowerChar t) && likeFuel fuel ps ts2

/-- `pattern LIKE`-matches `text`. -/
def likeMatch (pattern text : Str) : Bool :=
  likeFuel (pattern.length + text.length + 1) pattern text

/-- The `WHERE account = ? OR account LIKE ?` filter of
`get_by_account` and the scoped trial balance, with the lowered path
`p` bound to both parameters (the second as `p + ":%"`). -/
def accountFilter (p : Str) (account : Str) : Bool :=
  decide (account = p) || likeMatch (p ++ [':', '%']) account

/-- `SELECT DISTINCT` / `GROUP BY`: duplicate elimination.  Only
membership in the result is relied upon downstream. -/
def dedup {α : Type} [DecidableEq α] : List α → List α
  | [] => []
  | x :: xs => if x ∈ dedup xs then dedup xs else x :: dedup xs

/-- The `SELECT DISTINCT journal_entry_id FROM line_items WHERE account
= ? OR account LIKE ?` query of `get_by_account`, for an
already-lowered path. -/
def matchingEntryIds (db : DB) (account : Str) : List Nat :=
  dedup ((db.line_items.filter (fun li => accountFilter account li.account)).map
    (fun li => li.journal_entry_id))

/-- `TransactionStorage.get_by_account`: lowercase the path, collect the
distinct entry ids of line items matching the account exactly or via
`LIKE path || ':%'`, and return those entries ordered by timestamp
descending (the early `[]` return for an empty id list included). -/
def get_by_account (db : DB) (account : Str) : List JournalEntry :=
  if matchingEntryIds db (lowerStr account) = [] then []
  else
    (sortTsDesc (db.journal_entries.filter
      (fun r => decide (r.id ∈ matchingEntryIds db (lowerStr account))))).map
      (_load_entry db)

example :
    get_by_account
      { emptyDB with
        journal_entries := [⟨1, "a", "2024"⟩]
        line_items := [⟨1, 1, ("assets:cash").toList, some ⟨1, 0⟩, none⟩] }
      (("assets").toList) ≠ [] := by decide

/-! ## Trial balance (`get_trial_balance`)

The SQL computes `SUM(CAST(debit AS REAL))`: each TEXT amount is
converted to an IEEE-754 binary64 value and the running sum is binary64
addition.  The model represents each binary64 value by its exact
rational value and rounds after every operation with round-to-nearest,
ties-to-even, on a 53-bit significand — exact for the normal finite
range, which covers every amount a ledger holds (overflow, subnormals
and NaN are out of range here and are not modelled). -/

/-- An explicit fraction `num / den` with `den` positive by
construction.  The binary64 model computes on these rather than on `ℚ`
directly so that every step is plain integer arithmetic (`Rat`'s field
operations do not matter here; `PRat.toRat` gives the value). -/
structure PRat where
  num : Int
  den : Int
deriving DecidableEq, Repr

/-- The rational value of a fraction. -/
def PRat.toRat (a : PRat) : ℚ := Rat.divInt a.num a.den

/-- Comparison by cross-multiplication (valid for positive
denominators). -/
def PRat.ltB (a b : PRat) : Bool := a.num * b.den < b.num * a.den

/-- Fraction addition, without normalisation. -/
def PRat.add (a b : PRat) : PRat := ⟨a.num * b.den + b.num * a.den, a.den * b.den⟩

/-- Floor of a fraction (`Int.fdiv` is floor division; the denominator
is positive). -/
def PRat.floor (a : PRat) : Int := Int.fdiv a.num a.den

/-- Round a fraction to the nearest integer, ties to even. -/
def PRat.roundHalfEven (a : PRat) : Int :=
  let f := a.floor
  let rnum := a.num - f * a.den
  if 2 * rnum < a.den then f
  else if a.den < 2 * rnum then f + 1
  else if f % 2 = 0 then f else f + 1

/-- Scale a positive fraction up by powers of two until it reaches
`2^52` (fuelled loop; the fuel covers the whole binary64 range). -/
def normUp : Nat → PRat → Int → PRat × Int
  | 0, x, e => (x, e)
  | fuel + 1, x, e =>
    if x.ltB ⟨2 ^ 52, 1⟩ then normUp fuel ⟨x.num * 2, x.den⟩ (e - 1) else (x, e)

/-- Scale a fraction down by powers of two until it is below `2^53`. -/
def normDown : Nat → PRat → Int → PRat × Int
  | 0, x, e => (x, e)
  | fuel + 1, x, e =>
    if x.ltB ⟨2 ^ 53, 1⟩ then (x, e) else normDown fuel ⟨x.num, x.den * 2⟩ (e + 1)

/-- Round a fraction to the nearest binary64 value (as an exact
fraction): normalise the magnitude into `[2^52, 2^53)`, round the
53-bit significand half-to-even, and scale back. -/
def roundFloat (q : PRat) : PRat :=
  if q.num = 0 then ⟨0, 1⟩
  else
    let a : PRat := if q.num < 0 then ⟨-q.num, q.den⟩ else q
    let p1 := normUp 4400 a 0
    let p2 := normDown 4400 p1.1 p1.2
    let m := p2.1.roundHalfEven
    let mag : PRat :=
      if 0 ≤ p2.2 then ⟨m * 2 ^ p2.2.toNat, 1⟩ else ⟨m, 2 ^ (-p2.2).toNat⟩
    if q.num < 0 then ⟨-mag.num, mag.den⟩ else mag

/-- The decimal amount as an explicit fraction. -/
def Dec.valP (d : Dec) : PRat :=
  if 0 ≤ d.exp then ⟨d.coeff * 10 ^ d.exp.toNat, 1⟩ else ⟨d.coeff, 10 ^ (-d.exp).toNat⟩

/-- `CAST(text AS REAL)`: the stored decimal text converted to the
nearest binary64 value. -/
def castReal (d : Dec) : PRat := roundFloat d.valP

/-- SQLite's `SUM` over REAL values: a running binary64 addition over
the rows in scan order, starting from zero. -/
def sumReal (xs : List PRat) : PRat := xs.foldl (fun acc x => roundFloat (acc.add x)) ⟨0, 1⟩

/-- Ascending lexicographic order on strings (`ORDER BY account`:
`memcmp` on UTF-8 agrees with character-wise comparison). -/
def strLt : Str → Str → Bool
  | [], [] => false
  | [], _ :: _ => true
  | _ :: _, [] => false
  | a :: as, b :: bs => if a < b then true else if b < a then false else strLt as bs

/-- Insertion step for `ORDER BY account` ascending. -/
def insertStrAsc (x : Str) : List Str → List Str
  | [] => [x]
  | y :: ys => if strLt x y then x :: y :: ys else y :: insertStrAsc x ys

/-- Sort account names ascending for the `GROUP BY account ORDER BY
account` result. -/
def sortStrAsc (xs : List Str) : List Str :=
  xs.foldl (fun acc x => insertStrAsc x acc) []

/-- `TransactionStorage.get_trial_balance`: optionally restrict the line
items to a lowered scope (same `=` / `LIKE` filter as `get_by_account`),
group by account, and for each account return the binary64 totals
`SUM(CAST(debit AS REAL))` and `SUM(CAST(credit AS REAL))` as their
exact rational values.  The Python wrapper then converts each float to
`Decimal` through `str(...)`, the float's shortest decimal
representation — a value-preserving reading of the binary64 result, not
of the stored decimals. -/
def get_trial_balance (db : DB) (account : Option Str) : List (Str × PRat × PRat) :=
  let rows : List LineItemRow :=
    match account with
    | some a => db.line_items.filter (fun li => accountFilter (lowerStr a) li.account)
    | none => db.line_items
  let keys := sortStrAsc (dedup (rows.map (fun li => li.account)))
  keys.map (fun k =>
    let group := rows.filter (fun li => decide (li.account = k))
    (k,
     sumReal (group.map (fun li => match li.debit with | some d => castReal d | none => ⟨0, 1⟩)),
     sumReal (group.map (fun li => match li.credit with | some c => castReal c | none => ⟨0, 1⟩))))

/-- The exact decimal debit total of an account, as the specification
states it: the sum of the stored debit amounts with no floating-point
conversion.  This is the reference value the code's totals are compared
against; it is written from the spec's words, not from the code. -/
def specExactDebitTotal (db : DB) (account : Str) : ℚ :=
  ((db.line_items.filter (fun li => decide (li.account = account))).map
    (fun li => match li.debit with | some d => d.val | none => 0)).sum

/-! ## Raw UPDATE / DELETE (immutability enforcement)

These model direct lower-level SQL against the persisted structures,
bypassing the storage API.  A `BEFORE UPDATE` / `BEFORE DELETE` trigger
fires for each affected row and `RAISE(ABORT, ...)` rolls the statement
back, so a statement whose `WHERE` clause selects at least one row fails
if the corresponding trigger is installed and otherwise applies the
modification to every selected row. -/

/-- The error surfaced by the immutability triggers (`ImmutableLedger`
in the specification's taxonomy; the raised messages are `... cannot be
modified` / `... cannot be deleted`). -/
inductive SqlError where
  | immutableLedger
deriving DecidableEq, Repr

/-- `UPDATE journal_entries SET ... WHERE w`. -/
def sql_update_journal_entries (db : DB) (w : JournalRow → Bool)
    (f : JournalRow → JournalRow) : Except SqlError DB :=
  if (db.journal_entries.filter w).isEmpty then .ok db
  else if db.triggers.jeUpdate then .error .immutableLedger
  else .ok { db with journal_entries := db.journal_entries.map (fun r => if w r then f r else r) }

/-- `DELETE FROM journal_entries WHERE w`. -/
def sql_delete_journal_entries (db : DB) (w : JournalRow → Bool) : Except SqlError DB :=
  if (db.journal_entries.filter w).isEmpty then .ok db
  else if db.triggers.jeDelete then .error .immutableLedger
  else .ok { db with journal_entries := db.journal_entries.filter (fun r => !(w r)) }

/-- `UPDATE line_items SET ... WHERE w`. -/
def sql_update_line_items (db : DB) (w : LineItemRow → Bool)
    (f : LineItemRow → LineItemRow) : Except SqlError DB :=
  if (db.line_items.filter w).isEmpty then .ok db
  else if db.triggers.liUpdate then .error .immutableLedger
  else .ok { db with line_items := db.line_items.map (fun r => if w r then f r else r) }

/-- `DELETE FROM line_items WHERE w`. -/
def sql_delete_line_items (db : DB) (w : LineItemRow → Bool) : Except SqlError DB :=
  if (db.line_items.filter w).isEmpty then .ok db
  else if db.triggers.liDelete then .error .immutableLedger
  else .ok { db with line_items := db.line_items.filter (fun r => !(w r)) }

/-- The store visible after running a statement: on `ABORT` the
statement is rolled back and the previous state remains. -/
def applyResult (db : DB) : Except SqlError DB → DB
  | .ok d => d
  | .error _ => db

/-! ## Specification-side definitions

These two definitions are written from the specification's words (for
comparison with the code's behaviour), not from the code. -/

/-- The specification's matching rule for `getByAccount(path)` and the
scoped trial balance: the line-item account equals the path exactly, or
is a descendant, i.e. starts with `path + ":"`. -/
def specDescendantMatch (path account : Str) : Bool :=
  decide (account = path) || (path ++ [':']).isPrefixOf account

/-- The root segment of a stored account name: the part before the
first colon. -/
def rootSegment (name : Str) : Str := (splitColon name).headD []

/-! ## Reachable stores and their invariant -/

/-- The stores producible by the storage engine: a freshly initialised
database, re-initialisation of an existing store, and the successful
mutating operations (`add`, and the account materialisation used by
it).  A failed operation rolls back and leaves the previous — already
reachable — store. -/
inductive Reachable : DB → Prop where
  | init : Reachable (init_database none)
  | reinit (db : DB) : Reachable db → Reachable (init_database (some db))
  | add_ok (db : DB) (e : JournalEntry) (db' : DB) (id : Nat) :
      Reachable db → add db e = .ok (db', id) → Reachable db'
  | ensure_ok (db : DB) (name : Str) (db' : DB) :
      Reachable db → _ensure_account db name = .ok db' → Reachable db'

/-- Structural well-formedness of one account row with respect to the
full accounts table: its name joins a non-empty colon-free segment
list, its type is the type mapped from the first segment, every proper
prefix of the segment chain has an account row, and its parent link
points at a row named by the immediately shorter prefix (none for a
root). -/
def AccountGood (accs : List AccountRow) (a : AccountRow) : Prop :=
  ∃ segs : List Str, segs ≠ [] ∧ (∀ s ∈ segs, ':' ∉ s) ∧
    a.name = joinColon segs ∧
    ACCOUNT_TYPES.lookup (segs.headD []) = some a.type ∧
    (∀ k, 1 ≤ k → k < segs.length →
      ∃ b, b ∈ accs ∧ b.name = joinColon (segs.take k)) ∧
    ((segs.length = 1 ∧ a.parent_id = none) ∨
     (2 ≤ segs.length ∧
       ∃ b, b ∈ accs ∧ b.name = joinColon segs.dropLast ∧ a.parent_id = some b.id))

/-- The invariant every reachable store satisfies. -/
structure Inv (db : DB) : Prop where
  trig : db.triggers = ⟨true, true, true, true⟩
  accNamesU : db.accounts.Pairwise (fun a b => a.name ≠ b.name)
  accGood : ∀ a ∈ db.accounts, AccountGood db.accounts a
  jrIdsBound : ∀ r ∈ db.journal_entries, r.id < db.nextJournalId
  jrIdsU : db.journal_entries.Pairwise (fun a b => a.id ≠ b.id)
  liRefsBound : ∀ li ∈ db.line_items, li.journal_entry_id < db.nextJournalId
  liAccLower : ∀ li ∈ db.line_items, lowerStr li.account = li.account

/-! ## String lemmas -/

theorem splitColon_ne_nil (s : Str) : splitColon s ≠ [] := by
  cases s with
  | nil => simp [splitColon]
  | cons a as =>
    simp only [splitColon]
    split
    · simp
    · cases h : splitColon as <;> simp

theorem mem_splitColon_no_colon (s : Str) : ∀ g ∈ splitColon s, ':' ∉ g := by
  induction s with
  | nil => intro g hg; simp [splitColon] at hg; simp [hg]
  | cons a as ih =>
    intro g hg
    simp only [splitColon] at hg
    by_cases ha : a = ':'
    · rw [if_pos ha, List.mem_cons] at hg
      rcases hg with h | h
      · simp [h]
      · exact ih g h
    · rw [if_neg ha] at hg
      cases hsp : splitColon as with
      | nil => exact absurd hsp (splitColon_ne_nil as)
      | cons g0 gs =>
        rw [hsp, List.mem_cons] at hg
        rcases hg with h | h
        · subst h
          intro hmem
          rcases List.mem_cons.mp hmem with h | h
          · exact ha h.symm
          · exact ih g0 (by rw [hsp]; exact List.mem_cons_self g0 gs) h
        · exact ih g (by rw [hsp]; exact List.mem_cons_of_mem g0 h)

theorem mem_trimStr (c : Char) (s : Str) (h : c ∈ trimStr s) : c ∈ s := by
  unfold trimStr at h
  rw [List.mem_reverse] at h
  have h1 := (List.dropWhile_sublist _).mem h
  rw [List.mem_reverse] at h1
  exact (List.dropWhile_sublist _).mem h1

theorem splitColon_no_colon_single (g : Str) (h : ':' ∉ g) : splitColon g = [g] := by
  induction g with
  | nil => simp [splitColon]
  | cons a as ih =>
    have ha : a ≠ ':' := fun hc => h (by simp [hc])
    have has : ':' ∉ as := fun hc => h (List.mem_cons_of_mem a hc)
    simp only [splitColon, if_neg ha, ih has]

theorem splitColon_prefix (g : Str) (r : Str) (h : ':' ∉ g) :
    splitColon (g ++ ':' :: r) = g :: splitColon r := by
  induction g with
  | nil => simp [splitColon]
  | cons a as ih =>
    have ha : a ≠ ':' := fun hc => h (by simp [hc])
    have has : ':' ∉ as := fun hc => h (List.mem_cons_of_mem a hc)
    simp only [List.cons_append, splitColon, if_neg ha, List.append_eq, ih has]

theorem splitColon_joinColon (segs : List Str) (hne : segs ≠ [])
    (hcf : ∀ g ∈ segs, ':' ∉ g) : splitColon (joinColon segs) = segs := by
  induction segs with
  | nil => exact absurd rfl hne
  | cons g gs ih =>
    cases gs with
    | nil =>
      exact splitColon_no_colon_single g (hcf g (List.mem_cons_self g []))
    | cons g2 gs2 =>
      have hg : ':' ∉ g := hcf g (List.mem_cons_self _ _)
      have : joinColon (g :: g2 :: gs2) = g ++ ':' :: joinColon (g2 :: gs2) := rfl
      rw [this, splitColon_prefix g _ hg,
        ih (by simp) (fun x hx => hcf x (List.mem_cons_of_mem g hx))]

theorem joinColon_injOn (s1 s2 : List Str) (h1 : s1 ≠ []) (h2 : s2 ≠ [])
    (hc1 : ∀ g ∈ s1, ':' ∉ g) (hc2 : ∀ g ∈ s2, ':' ∉ g)
    (h : joinColon s1 = joinColon s2) : s1 = s2 := by
  have e1 := splitColon_joinColon s1 h1 hc1
  have e2 := splitColon_joinColon s2 h2 hc2
  rw [← e1, ← e2, h]

/-! ## Character lemmas -/

theorem lowerChar_cases (c : Char) :
    lowerChar c = c ∨ lowerChar c ∈ ("abcdefghijklmnopqrstuvwxyz").toList := by
  unfold lowerChar
  by_cases h : 65 ≤ c.toNat ∧ c.toNat ≤ 90
  · rw [if_pos h]
    right
    have hlen : c.toNat - 65 < (("abcdefghijklmnopqrstuvwxyz").toList).length := by
      have h26 : (("abcdefghijklmnopqrstuvwxyz").toList).length = 26 := by decide
      omega
    rw [List.getD_eq_getElem _ _ hlen]
    exact List.getElem_mem hlen
  · rw [if_neg h]
    left
    rfl

theorem lowerChar_lowerChar (c : Char) : lowerChar (lowerChar c) = lowerChar c := by
  rcases lowerChar_cases c with h | h
  · rw [h, h]
  · have hfix : lowerChar (lowerChar c) = lowerChar c := by
      revert h
      generalize lowerChar c = d
      intro h
      fin_cases h <;> decide
    exact hfix

theorem lowerStr_lowerStr (s : Str) : lowerStr (lowerStr s) = lowerStr s := by
  unfold lowerStr
  rw [List.map_map]
  exact List.map_congr_left (fun c _ => lowerChar_lowerChar c)

theorem lowerChar_ne_wild (c : Char) (w : Char)
    (hw : w ∈ [('%' : Char), '_', ':']) (h : c ≠ w) : lowerChar c ≠ w := by
  rcases lowerChar_cases c with he | he
  · rw [he]; exact h
  · intro hcontra
    rw [hcontra] at he
    fin_cases hw <;> revert he <;> decide

/-! ## Parser lemmas -/

theorem parse_ok_parts (name t : Str) (segs : List Str)
    (h : parse_account_path name = .ok (t, segs)) :
    segs = (splitColon (lowerStr name)).map trimStr ∧
    segs ≠ [] ∧ (∀ g ∈ segs, ':' ∉ g) ∧
    segs.headD [] ≠ [] ∧
    ACCOUNT_TYPES.lookup (segs.headD []) = some t := by
  unfold parse_account_path at h
  cases hsp : (splitColon (lowerStr name)).map trimStr with
  | nil => rw [hsp] at h; exact absurd h (by simp)
  | cons root rest =>
    rw [hsp] at h
    simp only [] at h
    by_cases hroot : root = []
    · rw [if_pos hroot] at h; exact absurd h (by simp)
    · rw [if_neg hroot] at h
      cases hlk : ACCOUNT_TYPES.lookup root with
      | none => rw [hlk] at h; exact absurd h (by simp)
      | some t0 =>
        rw [hlk] at h
        have ht0 : t0 = t := by
          simpa using congrArg (fun x => (x.toOption.map Prod.fst).getD []) h
        have hsegs : root :: rest = segs := by
          simpa using congrArg (fun x => (x.toOption.map Prod.snd).getD []) h
        subst ht0
        subst hsegs
        refine ⟨rfl, by simp, ?_, by simpa using hroot, by simpa using hlk⟩
        intro g hg hc
        rw [← hsp] at hg
        rcases List.mem_map.mp hg with ⟨g0, hg0, rfl⟩
        exact mem_splitColon_no_colon _ g0 hg0 (mem_trimStr ':' g0 hc)

theorem parse_ok_of_root (name : Str)
    (hroot : (((splitColon (lowerStr name)).map trimStr).headD []) ≠ [])
    (hlk : ∃ t, ACCOUNT_TYPES.lookup (((splitColon (lowerStr name)).map trimStr).headD []) = some t) :
    ∃ t, parse_account_path name =
      .ok (t, (splitColon (lowerStr name)).map trimStr) := by
  obtain ⟨t, hlk⟩ := hlk
  refine ⟨t, ?_⟩
  unfold parse_account_path
  cases hsp : (splitColon (lowerStr name)).map trimStr with
  | nil =>
    exfalso
    exact splitColon_ne_nil _ (List.map_eq_nil_iff.mp hsp)
  | cons root rest =>
    rw [hsp] at hroot hlk
    simp only [List.headD_cons] at hroot hlk
    simp only [if_neg hroot, hlk]

/-! ## `_ensure_account` loop analysis -/

theorem headD_take (l : List Str) (i : Nat) (h : 1 ≤ i) :
    (l.take i).headD [] = l.headD [] := by
  cases l with
  | nil => simp
  | cons a as =>
    cases i with
    | zero => omega
    | succ n => simp

theorem take_ne_nil_of (l : List Str) (i : Nat) (h1 : 1 ≤ i) (h2 : l ≠ []) :
    l.take i ≠ [] := by
  cases l with
  | nil => exact absurd rfl h2
  | cons a as =>
    cases i with
    | zero => omega
    | succ n => simp

theorem dropLast_take_pred (l : List Str) (i : Nat) (h : i ≤ l.length) :
    (l.take i).dropLast = l.take (i - 1) := by
  rw [List.dropLast_eq_take, List.take_take, List.length_take]
  congr 1
  omega

theorem AccountGood.mono {accs accs' : List AccountRow}
    (hsub : ∀ b, b ∈ accs → b ∈ accs') {a : AccountRow}
    (h : AccountGood accs a) : AccountGood accs' a := by
  obtain ⟨segs, h1, h2, h3, h4, h5, h6⟩ := h
  refine ⟨segs, h1, h2, h3, h4, ?_, ?_⟩
  · intro k hk1 hk2
    obtain ⟨b, hb, hbn⟩ := h5 k hk1 hk2
    exact ⟨b, hsub b hb, hbn⟩
  · rcases h6 with ⟨hl, hp⟩ | ⟨hl, b, hb, hbn, hbp⟩
    · exact Or.inl ⟨hl, hp⟩
    · exact Or.inr ⟨hl, b, hsub b hb, hbn, hbp⟩

theorem findAccount_some {accs : List AccountRow} {nm : Str} {b : AccountRow}
    (h : findAccount accs nm = some b) : b ∈ accs ∧ b.name = nm := by
  unfold findAccount at h
  have hm := List.mem_of_find?_eq_some h
  have hp := List.find?_some h
  simp only [decide_eq_true_eq] at hp
  exact ⟨hm, hp⟩

theorem findAccount_none {accs : List AccountRow} {nm : Str}
    (h : findAccount accs nm = none) : ∀ b ∈ accs, b.name ≠ nm := by
  unfold findAccount at h
  intro b hb
  have := List.find?_eq_none.mp h b hb
  simpa using this

/-- What holds of the intermediate state of the `_ensure_account` loop
after processing prefixes `1..n` starting from `base`: only the
accounts table has grown, every processed prefix has a row, and the
accounts-table invariants are maintained. -/
structure EnsureOut (base : DB) (segments : List Str) (n : Nat) (d : DB) : Prop where
  je : d.journal_entries = base.journal_entries
  li : d.line_items = base.line_items
  nj : d.nextJournalId = base.nextJournalId
  nl : d.nextLineItemId = base.nextLineItemId
  tr : d.triggers = base.triggers
  ext : ∃ new, d.accounts = base.accounts ++ new
  pres : ∀ k, 1 ≤ k → k ≤ n →
    ∃ b, b ∈ d.accounts ∧ b.name = joinColon (segments.take k)
  namesU : d.accounts.Pairwise (fun a b => a.name ≠ b.name)
  good : ∀ a ∈ d.accounts, AccountGood d.accounts a

theorem ensureStep_out (t : Str) (segments : List Str) (base d : DB) (n : Nat)
    (hne : segments ≠ []) (hcf : ∀ g ∈ segments, ':' ∉ g)
    (hlk : ACCOUNT_TYPES.lookup (segments.headD []) = some t)
    (hn : n + 1 ≤ segments.length)
    (ho : EnsureOut base segments n d) :
    EnsureOut base segments (n + 1) (ensureStep t segments d (n + 1)) := by
  unfold ensureStep
  cases hf : findAccount d.accounts (joinColon (segments.take (n + 1))) with
  | some b =>
    refine ⟨ho.je, ho.li, ho.nj, ho.nl, ho.tr, ho.ext, ?_, ho.namesU, ho.good⟩
    intro k hk1 hk2
    rcases Nat.lt_or_ge k (n + 1) with hlt | hge
    · exact ho.pres k hk1 (by omega)
    · have hk : k = n + 1 := by omega
      subst hk
      obtain ⟨hb1, hb2⟩ := findAccount_some hf
      exact ⟨b, hb1, hb2⟩
  | none =>
    show EnsureOut base segments (n + 1)
      { d with
        accounts := d.accounts ++
          [⟨d.nextAccountId, joinColon (segments.take (n + 1)), t,
            if 1 < n + 1 then
              match findAccount d.accounts (joinColon (segments.take (n + 1 - 1))) with
              | some r => some r.id
              | none => none
            else none⟩]
        nextAccountId := d.nextAccountId + 1 }
    have hsub : ∀ b : AccountRow, b ∈ d.accounts →
        b ∈ d.accounts ++
          [⟨d.nextAccountId, joinColon (segments.take (n + 1)), t,
            if 1 < n + 1 then
              match findAccount d.accounts (joinColon (segments.take (n + 1 - 1))) with
              | some r => some r.id
              | none => none
            else none⟩] :=
      fun b hb => List.mem_append_left _ hb
    refine ⟨ho.je, ho.li, ho.nj, ho.nl, ho.tr, ?_, ?_, ?_, ?_⟩
    · obtain ⟨new, hnew⟩ := ho.ext
      refine ⟨new ++
        [⟨d.nextAccountId, joinColon (segments.take (n + 1)), t,
          if 1 < n + 1 then
            match findAccount d.accounts (joinColon (segments.take (n + 1 - 1))) with
            | some r => some r.id
            | none => none
          else none⟩], ?_⟩
      rw [hnew, List.append_assoc]
    · intro k hk1 hk2
      rcases Nat.lt_or_ge k (n + 1) with hlt | hge
      · obtain ⟨b, hb, hbn⟩ := ho.pres k hk1 (by omega)
        exact ⟨b, hsub b hb, hbn⟩
      · have hk : k = n + 1 := by omega
        subst hk
        exact ⟨_, List.mem_append_right _ (List.mem_singleton.mpr rfl), rfl⟩
    · rw [List.pairwise_append]
      refine ⟨ho.namesU, by simp, ?_⟩
      intro a ha b hb
      rw [List.mem_singleton] at hb
      subst hb
      exact findAccount_none hf a ha
    · intro a ha
      rcases List.mem_append.mp ha with hmem | hmem
      · exact AccountGood.mono hsub (ho.good a hmem)
      · rw [List.mem_singleton] at hmem
        subst hmem
        refine ⟨segments.take (n + 1), take_ne_nil_of _ _ (by omega) hne,
          fun g hg => hcf g (List.take_subset _ _ hg), rfl, ?_, ?_, ?_⟩
        · rw [headD_take _ _ (by omega)]
          exact hlk
        · intro k hk1 hk2
          rw [List.length_take] at hk2
          have hkn : k ≤ n := by omega
          obtain ⟨b, hb, hbn⟩ := ho.pres k hk1 hkn
          refine ⟨b, hsub b hb, ?_⟩
          rw [List.take_take, Nat.min_eq_left (by omega)]
          exact hbn
        · cases n with
          | zero =>
            left
            constructor
            · rw [List.length_take]
              omega
            · simp
          | succ m =>
            right
            constructor
            · rw [List.length_take]
              omega
            · have hpar := ho.pres (m + 1) (by omega) (by omega)
              obtain ⟨b0, hb0, hb0n⟩ := hpar
              cases hpf : findAccount d.accounts
                  (joinColon (segments.take (m + 1 + 1 - 1))) with
              | none =>
                exfalso
                exact findAccount_none hpf b0 hb0 (by simpa using hb0n)
              | some r =>
                rw [hpf] at hsub
                obtain ⟨hr1, hr2⟩ := findAccount_some hpf
                refine ⟨r, hsub r hr1, ?_, ?_⟩
                · rw [dropLast_take_pred _ _ hn]
                  simpa using hr2
                · simp

theorem ensureLoop_out (t : Str) (segments : List Str) (base : DB)
    (hne : segments ≠ []) (hcf : ∀ g ∈ segments, ':' ∉ g)
    (hlk : ACCOUNT_TYPES.lookup (segments.headD []) = some t)
    (hU : base.accounts.Pairwise (fun a b => a.name ≠ b.name))
    (hG : ∀ a ∈ base.accounts, AccountGood base.accounts a) :
    ∀ n, n ≤ segments.length → EnsureOut base segments n (ensureLoop t segments base n) := by
  intro n
  induction n with
  | zero =>
    intro _
    exact ⟨rfl, rfl, rfl, rfl, rfl, ⟨[], by simp [ensureLoop]⟩,
      fun k hk1 hk2 => absurd (Nat.le_trans hk1 hk2) (by omega), hU, hG⟩
  | succ m ih =>
    intro h
    exact ensureStep_out t segments base _ m hne hcf hlk h (ih (by omega))

theorem ensure_account_out (db : DB) (nm : Str) (db' : DB)
    (hU : db.accounts.Pairwise (fun a b => a.name ≠ b.name))
    (hG : ∀ a ∈ db.accounts, AccountGood db.accounts a)
    (h : _ensure_account db nm = .ok db') :
    ∃ t segs, parse_account_path (lowerStr nm) = .ok (t, segs) ∧
      EnsureOut db segs segs.length db' := by
  unfold _ensure_account at h
  cases hp : parse_account_path (lowerStr nm) with
  | error e => rw [hp] at h; exact absurd h (by simp)
  | ok pr =>
    obtain ⟨t, segs⟩ := pr
    rw [hp] at h
    have hdb : ensureLoop t segs db segs.length = db' := by
      simpa using h
    obtain ⟨-, hne, hcf, -, hlk⟩ := parse_ok_parts _ _ _ hp
    subst hdb
    exact ⟨t, segs, rfl,
      ensureLoop_out t segs db hne hcf hlk hU hG segs.length (Nat.le_refl _)⟩

/-! ## Invariant preservation -/

theorem inv_init_none : Inv (init_database none) := by
  refine ⟨rfl, ?_, ?_, ?_, ?_, ?_, ?_⟩ <;>
    simp [init_database, _init_db, emptyDB]

theorem inv_init_some (db : DB) (h : Inv db) : Inv (init_database (some db)) :=
  ⟨rfl, h.accNamesU, h.accGood, h.jrIdsBound, h.jrIdsU, h.liRefsBound, h.liAccLower⟩

theorem ensure_fields (db : DB) (nm : Str) (db' : DB) (hInv : Inv db)
    (h : _ensure_account db nm = .ok db') :
    Inv db' ∧ db'.journal_entries = db.journal_entries ∧
      db'.line_items = db.line_items ∧
      db'.nextJournalId = db.nextJournalId ∧
      db'.nextLineItemId = db.nextLineItemId ∧
      db'.triggers = db.triggers := by
  obtain ⟨t, segs, hp, ho⟩ := ensure_account_out db nm db' hInv.accNamesU hInv.accGood h
  refine ⟨⟨ho.tr.trans hInv.trig, ho.namesU, ho.good, ?_, ho.je ▸ hInv.jrIdsU, ?_, ?_⟩,
    ho.je, ho.li, ho.nj, ho.nl, ho.tr⟩
  · intro r hr
    rw [ho.je] at hr
    rw [ho.nj]
    exact hInv.jrIdsBound r hr
  · intro li hli
    rw [ho.li] at hli
    rw [ho.nj]
    exact hInv.liRefsBound li hli
  · intro li hli
    rw [ho.li] at hli
    exact hInv.liAccLower li hli

theorem ensureAll_fields (items : List LineItem) :
    ∀ db db' : DB, Inv db → ensureAll db items = .ok db' →
    Inv db' ∧ db'.journal_entries = db.journal_entries ∧
      db'.line_items = db.line_items ∧
      db'.nextJournalId = db.nextJournalId ∧
      db'.nextLineItemId = db.nextLineItemId ∧
      db'.triggers = db.triggers := by
  induction items with
  | nil =>
    intro db db' hInv h
    have hdb : db = db' := by simpa [ensureAll] using h
    subst hdb
    exact ⟨hInv, rfl, rfl, rfl, rfl, rfl⟩
  | cons it rest ih =>
    intro db db' hInv h
    unfold ensureAll at h
    cases he : _ensure_account db it.account with
    | error e => rw [he] at h; exact absurd h (by simp)
    | ok db1 =>
      rw [he] at h
      obtain ⟨hInv1, f1, f2, f3, f4, f5⟩ := ensure_fields db it.account db1 hInv he
      obtain ⟨hInv2, g1, g2, g3, g4, g5⟩ := ih db1 db' hInv1 h
      exact ⟨hInv2, g1.trans f1, g2.trans f2, g3.trans f3, g4.trans f4, g5.trans f5⟩

theorem insertLineItems_out (eid : Nat) (items : List LineItem) :
    ∀ db db' : DB, insertLineItems eid db items = .ok db' →
    db'.journal_entries = db.journal_entries ∧
    db'.accounts = db.accounts ∧
    db'.nextJournalId = db.nextJournalId ∧
    db'.triggers = db.triggers ∧
    ∃ rows : List LineItemRow, db'.line_items = db.line_items ++ rows ∧
      rows.map (fun r => (r.account, r.debit, r.credit)) =
        items.map (fun it => (lowerStr it.account, it.debit, it.credit)) ∧
      (∀ r ∈ rows, r.journal_entry_id = eid) ∧
      (∀ r ∈ rows, lowerStr r.account = r.account) := by
  induction items with
  | nil =>
    intro db db' h
    have hdb : db = db' := by simpa [insertLineItems] using h
    subst hdb
    exact ⟨rfl, rfl, rfl, rfl, [], by simp, rfl, by simp, by simp⟩
  | cons it rest ih =>
    intro db db' h
    unfold insertLineItems at h
    by_cases hck : (it.debit.isSome && it.credit.isNone) ||
        (it.debit.isNone && it.credit.isSome)
    · rw [if_pos hck] at h
      obtain ⟨g1, g2, g3, g4, rows, hr1, hr2, hr3, hr4⟩ := ih _ db' h
      refine ⟨g1, g2, g3, g4,
        ⟨db.nextLineItemId, eid, lowerStr it.account, it.debit, it.credit⟩ :: rows,
        ?_, ?_, ?_, ?_⟩
      · rw [hr1]
        simp
      · simpa using hr2
      · intro r hr
        rcases List.mem_cons.mp hr with hr | hr
        · rw [hr]
        · exact hr3 r hr
      · intro r hr
        rcases List.mem_cons.mp hr with hr | hr
        · rw [hr]
          exact lowerStr_lowerStr it.account
        · exact hr4 r hr
    · rw [if_neg hck] at h
      exact absurd h (by simp)

/-- Full characterisation of a successful `add`: the assigned id is the
journal counter of the pre-state, the journal table gains exactly the
new row, the line-item table gains exactly the lowered line items, only
accounts were otherwise touched, and the invariant is preserved. -/
theorem add_out (db : DB) (e : JournalEntry) (db' : DB) (id : Nat)
    (hInv : Inv db) (h : add db e = .ok (db', id)) :
    Inv db' ∧ id = db.nextJournalId ∧
    db'.journal_entries = db.journal_entries ++ [⟨id, e.description, e.timestamp⟩] ∧
    db'.nextJournalId = id + 1 ∧
    ∃ rows : List LineItemRow, db'.line_items = db.line_items ++ rows ∧
      rows.map (fun r => (r.account, r.debit, r.credit)) =
        e.line_items.map (fun it => (lowerStr it.account, it.debit, it.credit)) ∧
      (∀ r ∈ rows, r.journal_entry_id = id) := by
  unfold add at h
  split at h
  · exact absurd h (by simp)
  · rename_i db1 ha
    split at h
    · exact absurd h (by simp)
    · rename_i db3 hins
      obtain ⟨hInv1, f1, f2, f3, f4, f5⟩ := ensureAll_fields e.line_items db db1 hInv ha
      rw [Except.ok.injEq, Prod.mk.injEq] at h
      obtain ⟨hdb3, hid⟩ := h
      subst hdb3
      obtain ⟨g1, g2, g3, g4, rows, hr1, hr2, hr3, hr4⟩ :=
        insertLineItems_out db1.nextJournalId e.line_items _ db3 hins
      dsimp only at g1 g2 g3 g4 hr1
      have hid' : id = db.nextJournalId := by rw [← hid, f3]
      constructor
      · -- the invariant for db'
        refine ⟨g4.trans (f5.trans hInv.trig), g2 ▸ hInv1.accNamesU, ?_, ?_, ?_, ?_, ?_⟩
        · intro a haq
          rw [g2] at haq
          exact AccountGood.mono (fun b hb => by rw [g2]; exact hb) (hInv1.accGood a haq)
        · intro r hr
          rw [g1] at hr
          rw [g3]
          simp only [List.mem_append, List.mem_singleton] at hr
          rcases hr with hr | hr
          · have := hInv1.jrIdsBound r hr
            omega
          · rw [hr]
            simp
        · rw [g1]
          rw [List.pairwise_append]
          refine ⟨hInv1.jrIdsU, by simp, ?_⟩
          intro a haq b hb
          rw [List.mem_singleton] at hb
          subst hb
          have := hInv1.jrIdsBound a haq
          dsimp only
          omega
        · intro li hli
          rw [hr1] at hli
          rw [g3]
          rcases List.mem_append.mp hli with hli | hli
          · rw [f2] at hli
            have := hInv.liRefsBound li hli
            rw [← f3] at this
            omega
          · rw [hr3 li hli]
            omega
        · intro li hli
          rw [hr1] at hli
          rcases List.mem_append.mp hli with hli | hli
          · rw [f2] at hli
            exact hInv.liAccLower li hli
          · exact hr4 li hli
      · refine ⟨hid', ?_, ?_, rows, ?_, hr2, ?_⟩
        · rw [g1, f1, hid]
        · rw [g3, hid]
        · rw [hr1, f2]
        · intro r hr
          rw [hr3 r hr, hid]

/-- Every reachable store satisfies the invariant. -/
theorem reachable_inv (db : DB) (h : Reachable db) : Inv db := by
  induction h with
  | init => exact inv_init_none
  | reinit db0 h0 ih => exact inv_init_some db0 ih
  | add_ok db0 e db' id h0 hadd ih => exact (add_out db0 e db' id ih hadd).1
  | ensure_ok db0 nm db' h0 hens ih => exact (ensure_fields db0 nm db' ih hens).1

/-! ## Sample stores used by concrete witnesses -/

/-- A two-line-item journal entry with lowercase accounts and amount
`50.00`. -/
def sampleEntry : JournalEntry :=
  { description := "Test", timestamp := "2024-01-15T10:30:00"
    line_items := [
      { account := ("assets:cash").toList, debit := some ⟨5000, -2⟩ },
      { account := ("income:revenue").toList, credit := some ⟨5000, -2⟩ }] }

/-- A freshly initialised store with `sampleEntry` added. -/
def sampleAdded : DB :=
  match add (init_database none) sampleEntry with
  | .ok p => p.1
  | .error _ => init_database none

/-- The store after `_ensure_account` of `assets:bank:checking` on a
fresh store. -/
def sampleEnsured : DB :=
  match _ensure_account (init_database none) (("assets:bank:checking").toList) with
  | .ok d => d
  | .error _ => init_database none

/-! ## The claims -/

/-- C6: for every account ever persisted by the store, its type equals
the account type mapped from the root segment of its name, and an
account whose name has `N` segments has a persisted ancestor account
for every proper prefix of `1..N-1` segments, each child's `parent_id`
referencing the account for the immediately shorter prefix (none for
the root). -/
theorem c6_account_hierarchy_invariant (db : DB) (h : Reachable db)
    (a : AccountRow) (ha : a ∈ db.accounts) :
    ACCOUNT_TYPES.lookup (rootSegment a.name) = some a.type ∧
    ∀ k, 1 ≤ k → k ≤ (splitColon a.name).length →
      ∃ b, b ∈ db.accounts ∧ b.name = joinColon ((splitColon a.name).take k) ∧
        (k = 1 → b.parent_id = none) ∧
        (2 ≤ k → ∃ c, c ∈ db.accounts ∧
          c.name = joinColon ((splitColon a.name).take (k - 1)) ∧
          b.parent_id = some c.id) := by
  have hInv := reachable_inv db h
  obtain ⟨segs, hne, hcf, hname, hlk, hpre, hpar⟩ := hInv.accGood a ha
  have hsplit : splitColon a.name = segs := by
    rw [hname]
    exact splitColon_joinColon segs hne hcf
  rw [rootSegment, hsplit]
  have hhead : segs.headD [] = segs.headD [] := rfl
  constructor
  · exact hlk
  · intro k hk1 hk2
    -- the account row named by the k-prefix
    have hrow : ∃ b, b ∈ db.accounts ∧ b.name = joinColon (segs.take k) := by
      rcases Nat.lt_or_ge k segs.length with hlt | hge
      · exact hpre k hk1 hlt
      · have hk : k = segs.length := by omega
        subst hk
        exact ⟨a, ha, by rw [List.take_length, hname]⟩
    obtain ⟨b, hb, hbn⟩ := hrow
    refine ⟨b, hb, hbn, ?_, ?_⟩
    all_goals
      obtain ⟨segsb, hbne, hbcf, hbname, hblk, hbpre, hbpar⟩ := hInv.accGood b hb
    all_goals
      have hsegsb : segsb = segs.take k := by
        refine joinColon_injOn segsb (segs.take k) hbne
          (take_ne_nil_of segs k hk1 hne) hbcf
          (fun g hg => hcf g (List.take_subset _ _ hg)) ?_
        rw [← hbname, ← hbn]
    all_goals
      have hlenb : segsb.length = k := by
        rw [hsegsb, List.length_take]
        omega
    · intro hk
      rcases hbpar with ⟨h1, h2⟩ | ⟨h1, h2⟩
      · exact h2
      · omega
    · intro hk
      rcases hbpar with ⟨h1, h2⟩ | ⟨h1, c, hc, hcn, hcp⟩
      · omega
      · refine ⟨c, hc, ?_, hcp⟩
        rw [hcn, hsegsb, dropLast_take_pred segs k (by omega)]

/-- C6 witness: in the concrete store obtained by ensuring
`assets:bank:checking`, the row for `assets:bank` has type `asset`
(mapped from its root segment) and a parent chain as claimed. -/
theorem c6_witness :
    ACCOUNT_TYPES.lookup (rootSegment (sampleEnsured.accounts.getD 1
      ⟨0, [], [], none⟩).name) =
      some (sampleEnsured.accounts.getD 1 ⟨0, [], [], none⟩).type ∧
    ∃ b, b ∈ sampleEnsured.accounts ∧
      b.name = joinColon ((splitColon (sampleEnsured.accounts.getD 1
        ⟨0, [], [], none⟩).name).take 2) ∧
      (2 = 1 → b.parent_id = none) ∧
      (2 ≤ 2 → ∃ c, c ∈ sampleEnsured.accounts ∧
        c.name = joinColon ((splitColon (sampleEnsured.accounts.getD 1
          ⟨0, [], [], none⟩).name).take (2 - 1)) ∧
        b.parent_id = some c.id) := by
  have h := c6_account_hierarchy_invariant sampleEnsured
    (Reachable.ensure_ok (init_database none) (("assets:bank:checking").toList)
      sampleEnsured Reachable.init (by decide))
    (sampleEnsured.accounts.getD 1 ⟨0, [], [], none⟩) (by decide)
  exact ⟨h.1, h.2 2 (by decide) (by decide)⟩

/-- In a table with pairwise-distinct names, a name that occurs has
exactly one row. -/
theorem countP_name_eq_one {l : List AccountRow}
    (hU : l.Pairwise (fun a b => a.name ≠ b.name)) {x : Str} {b : AccountRow}
    (hb : b ∈ l) (hbn : b.name = x) :
    l.countP (fun a => decide (a.name = x)) = 1 := by
  induction l with
  | nil => cases hb
  | cons a as ih =>
    rw [List.countP_cons]
    rw [List.pairwise_cons] at hU
    obtain ⟨hhead, htail⟩ := hU
    rcases List.mem_cons.mp hb with hba | hbas
    · subst hba
      have hz : as.countP (fun a2 => decide (a2.name = x)) = 0 := by
        rw [List.countP_eq_zero]
        intro c hc
        simp only [decide_eq_true_eq]
        rw [← hbn]
        exact fun hcontra => hhead c hc hcontra.symm
      rw [hz, hbn]
      simp
    · have hne : a.name ≠ x := by
        rw [← hbn]
        exact hhead b hbas
      rw [ih htail hbas]
      simp [hne]

/-- If every prefix of the segment chain already has a row, the
`_ensure_account` loop changes nothing. -/
theorem ensureLoop_id (t : Str) (segments : List Str) (d : DB) :
    ∀ n, (∀ k, 1 ≤ k → k ≤ n →
      ∃ b, b ∈ d.accounts ∧ b.name = joinColon (segments.take k)) →
    ensureLoop t segments d n = d := by
  intro n
  induction n with
  | zero => intro _; rfl
  | succ m ih =>
    intro hpres
    have hm : ensureLoop t segments d m = d := ih (fun k hk1 hk2 => hpres k hk1 (by omega))
    show ensureStep t segments (ensureLoop t segments d m) (m + 1) = d
    rw [hm]
    unfold ensureStep
    obtain ⟨b, hb, hbn⟩ := hpres (m + 1) (by omega) (Nat.le_refl _)
    cases hf : findAccount d.accounts (joinColon (segments.take (m + 1))) with
    | some c => rfl
    | none => exact absurd hbn (findAccount_none hf b hb)

/-- C5: `ensureAccount` is idempotent — after one successful call the
second call with the same path returns the store unchanged, and the
store holds exactly one account row for each prefix of the path's
segment chain. -/
theorem c5_ensure_account_idempotent (db db' : DB) (p t : Str) (segs : List Str)
    (hreach : Reachable db)
    (hp : parse_account_path (lowerStr p) = .ok (t, segs))
    (h1 : _ensure_account db p = .ok db') :
    _ensure_account db' p = .ok db' ∧
    ∀ k, 1 ≤ k → k ≤ segs.length →
      db'.accounts.countP (fun a => decide (a.name = joinColon (segs.take k))) = 1 := by
  have hInv := reachable_inv db hreach
  obtain ⟨t0, segs0, hp0, ho⟩ :=
    ensure_account_out db p db' hInv.accNamesU hInv.accGood h1
  rw [hp, Except.ok.injEq, Prod.mk.injEq] at hp0
  obtain ⟨ht, hsegs⟩ := hp0
  subst ht
  subst hsegs
  constructor
  · unfold _ensure_account
    rw [hp]
    dsimp only
    rw [ensureLoop_id t segs db' segs.length
      (fun k hk1 hk2 => ho.pres k hk1 hk2)]
  · intro k hk1 hk2
    obtain ⟨b, hb, hbn⟩ := ho.pres k hk1 hk2
    exact countP_name_eq_one ho.namesU hb hbn

/-- The store after `_ensure_account` of `assets:cash` on a fresh
store. -/
def sampleCashEnsured : DB :=
  match _ensure_account (init_database none) (("assets:cash").toList) with
  | .ok d => d
  | .error _ => init_database none

/-- C5 witness: ensuring `assets:cash` twice on a fresh store — the
second call returns the store unchanged and the store holds exactly one
row for the full path prefix. -/
theorem c5_witness :
    _ensure_account sampleCashEnsured (("assets:cash").toList) = .ok sampleCashEnsured ∧
    sampleCashEnsured.accounts.countP (fun a => decide (a.name =
      joinColon (([("assets").toList, ("cash").toList] : List Str).take 2))) = 1 := by
  have h := c5_ensure_account_idempotent (init_database none) sampleCashEnsured
    (("assets:cash").toList) (("asset").toList)
    [("assets").toList, ("cash").toList]
    Reachable.init (by decide) (by decide)
  exact ⟨h.1, h.2 2 (by decide) (by decide)⟩

/-- If some line item's account fails parsing, the `ensureAccount` loop
of `add` raises that `ValueError`. -/
theorem ensureAll_error (items : List LineItem) :
    ∀ db : DB,
    (∃ it ∈ items, ∃ e, parse_account_path (lowerStr it.account) = .error e) →
    ∃ e', ensureAll db items = .error e' := by
  induction items with
  | nil =>
    intro db h
    obtain ⟨it, hit, -⟩ := h
    cases hit
  | cons a rest ih =>
    intro db h
    obtain ⟨it, hit, e, he⟩ := h
    unfold ensureAll
    cases hea : _ensure_account db a.account with
    | error e0 => exact ⟨e0, rfl⟩
    | ok db1 =>
      rcases List.mem_cons.mp hit with hh | hh
      · exfalso
        subst hh
        unfold _ensure_account at hea
        rw [he] at hea
        exact absurd hea (by simp)
      · exact ih db1 ⟨it, hh, e, he⟩

/-- The store visible to later operations after a call to `add`: the
`with conn:` block commits the new state on success and rolls the
transaction back on an exception, leaving the previous store. -/
def addRun (db : DB) (entry : JournalEntry) : DB :=
  match add db entry with
  | .ok p => p.1
  | .error _ => db

/-- C1: if any line item's account path fails parsing, `add` fails with
that parse error (`InvalidAccountRoot`/`InvalidAccountName`), and the
store visible afterwards is unchanged — every row of the attempted add,
including accounts auto-created for earlier line items, is rolled back
by the transaction. -/
theorem c1_add_parse_failure_rolls_back (db : DB) (entry : JournalEntry)
    (item : LineItem) (hmem : item ∈ entry.line_items) (e : ParseError)
    (hfail : parse_account_path (lowerStr item.account) = .error e) :
    (∃ e', add db entry = .error (AddError.parse e')) ∧
    addRun db entry = db := by
  obtain ⟨e', he'⟩ := ensureAll_error entry.line_items db ⟨item, hmem, e, hfail⟩
  have hadd : add db entry = .error (AddError.parse e') := by
    unfold add
    rw [he']
  exact ⟨⟨e', hadd⟩, by unfold addRun; rw [hadd]⟩

/-- A journal entry whose debit account has an unrecognised root. -/
def badRootEntry : JournalEntry :=
  { description := "Bad", timestamp := "2024-01-15T10:30:00"
    line_items := [
      { account := ("badroot:foo").toList, debit := some ⟨10000, -2⟩ },
      { account := ("assets:cash").toList, credit := some ⟨10000, -2⟩ }] }

/-- C1 witness: adding an entry debiting `badroot:foo` to a fresh store
fails with a parse error and leaves the store unchanged. -/
theorem c1_witness :
    (∃ e', add (init_database none) badRootEntry = .error (AddError.parse e')) ∧
    addRun (init_database none) badRootEntry = init_database none :=
  c1_add_parse_failure_rolls_back (init_database none) badRootEntry
    ⟨("badroot:foo").toList, some ⟨10000, -2⟩, none, none⟩
    (by decide) ParseError.invalidAccountRoot (by decide)

/-- C2: on every reachable store, raw `UPDATE` or `DELETE` statements
against `journal_entries` or `line_items` that touch at least one
stored row fail with the `ImmutableLedger` error raised by the
installed triggers, and the aborted statement leaves the store
unchanged.  The statements model direct lower-level SQL access, not the
storage API. -/
theorem c2_immutable_ledger (db : DB) (h : Reachable db) :
    (∀ w f, (∃ r ∈ db.journal_entries, w r = true) →
      sql_update_journal_entries db w f = .error .immutableLedger ∧
      applyResult db (sql_update_journal_entries db w f) = db) ∧
    (∀ w, (∃ r ∈ db.journal_entries, w r = true) →
      sql_delete_journal_entries db w = .error .immutableLedger ∧
      applyResult db (sql_delete_journal_entries db w) = db) ∧
    (∀ w f, (∃ r ∈ db.line_items, w r = true) →
      sql_update_line_items db w f = .error .immutableLedger ∧
      applyResult db (sql_update_line_items db w f) = db) ∧
    (∀ w, (∃ r ∈ db.line_items, w r = true) →
      sql_delete_line_items db w = .error .immutableLedger ∧
      applyResult db (sql_delete_line_items db w) = db) := by
  have htrig := (reachable_inv db h).trig
  have hje : db.triggers.jeUpdate = true ∧ db.triggers.jeDelete = true ∧
      db.triggers.liUpdate = true ∧ db.triggers.liDelete = true := by
    rw [htrig]
    exact ⟨rfl, rfl, rfl, rfl⟩
  have hfil : ∀ {α : Type} (l : List α) (w : α → Bool),
      (∃ r ∈ l, w r = true) → (l.filter w).isEmpty = false := by
    intro α l w ⟨r, hr, hw⟩
    rw [List.isEmpty_eq_false_iff_exists_mem]
    exact ⟨r, List.mem_filter.mpr ⟨hr, hw⟩⟩
  refine ⟨?_, ?_, ?_, ?_⟩
  · intro w f hx
    have heq : sql_update_journal_entries db w f = .error .immutableLedger := by
      unfold sql_update_journal_entries
      rw [hfil _ w hx, hje.1]
      simp
    exact ⟨heq, by rw [heq]; rfl⟩
  · intro w hx
    have heq : sql_delete_journal_entries db w = .error .immutableLedger := by
      unfold sql_delete_journal_entries
      rw [hfil _ w hx, hje.2.1]
      simp
    exact ⟨heq, by rw [heq]; rfl⟩
  · intro w f hx
    have heq : sql_update_line_items db w f = .error .immutableLedger := by
      unfold sql_update_line_items
      rw [hfil _ w hx, hje.2.2.1]
      simp
    exact ⟨heq, by rw [heq]; rfl⟩
  · intro w hx
    have heq : sql_delete_line_items db w = .error .immutableLedger := by
      unfold sql_delete_line_items
      rw [hfil _ w hx, hje.2.2.2]
      simp
    exact ⟨heq, by rw [heq]; rfl⟩

/-- C2 witness: on the concrete store holding one entry, a raw
`UPDATE journal_entries SET description = 'hacked' WHERE id = 1` fails
with `ImmutableLedger` and the store is unchanged. -/
theorem c2_witness :
    sql_update_journal_entries sampleAdded (fun r => decide (r.id = 1))
      (fun r => { r with description := "hacked" }) =
      .error SqlError.immutableLedger ∧
    applyResult sampleAdded (sql_update_journal_entries sampleAdded
      (fun r => decide (r.id = 1))
      (fun r => { r with description := "hacked" })) = sampleAdded := by
  have h := c2_immutable_ledger sampleAdded
    (Reachable.add_ok (init_database none) sampleEntry sampleAdded 1
      Reachable.init (by decide))
  exact h.1 (fun r => decide (r.id = 1)) (fun r => { r with description := "hacked" })
    ⟨⟨1, "Test", "2024-01-15T10:30:00"⟩, by decide, by decide⟩

/-- A journal entry whose debit account is written with uppercase
letters; parsing lowercases it, so `add` succeeds. -/
def upperEntry : JournalEntry :=
  { description := "Upper", timestamp := "2024-01-15T10:30:00"
    line_items := [
      { account := ("ASSETS:cash").toList, debit := some ⟨10000, -2⟩ },
      { account := ("income:revenue").toList, credit := some ⟨10000, -2⟩ }] }

/-- The store after adding `upperEntry` to a fresh store. -/
def upperAdded : DB :=
  match add (init_database none) upperEntry with
  | .ok p => p.1
  | .error _ => init_database none

/-- C4 counterexample: `add` lowercases accounts before persisting, so
for an entry supplied with account `ASSETS:cash` the entry returned by
`getById` carries `assets:cash` — its line items do not exactly match
those supplied (the claim demands the same accounts). -/
theorem c4_counterexample :
    add (init_database none) upperEntry = .ok (upperAdded, 1) ∧
    (get_by_id upperAdded 1).map
        (fun r => r.line_items.map (fun li => li.account)) ≠
      some (upperEntry.line_items.map (fun li => li.account)) := by
  decide

/-- C4 (amended): for every entry successfully added, `getById` on the
returned id yields an entry whose line items match those supplied with
each account lowercased — same debit/credit assignment and the decimal
amounts preserved exactly. -/
theorem c4_roundtrip_lowercased (db : DB) (e : JournalEntry) (db' : DB)
    (id : Nat) (hreach : Reachable db) (hok : add db e = .ok (db', id)) :
    ∃ r, get_by_id db' id = some r ∧
      r.line_items.map (fun li => (li.account, li.debit, li.credit)) =
        e.line_items.map (fun it => (lowerStr it.account, it.debit, it.credit)) := by
  have hInv := reachable_inv db hreach
  obtain ⟨hInv', hid, hje, hnj, rows, hli, hmap, hrefs⟩ := add_out db e db' id hInv hok
  have hfind : db'.journal_entries.find? (fun r => decide (r.id = id)) =
      some ⟨id, e.description, e.timestamp⟩ := by
    rw [hje, List.find?_append]
    have hnone : db.journal_entries.find? (fun r => decide (r.id = id)) = none := by
      rw [List.find?_eq_none]
      intro r hr
      have := hInv.jrIdsBound r hr
      simp only [decide_eq_true_eq]
      omega
    rw [hnone]
    simp
  refine ⟨_load_entry db' ⟨id, e.description, e.timestamp⟩, ?_, ?_⟩
  · unfold get_by_id
    rw [hfind]
  · unfold _load_entry
    dsimp only
    rw [hli, List.filter_append]
    have hold : db.line_items.filter
        (fun li => decide (li.journal_entry_id = id)) = [] := by
      rw [List.filter_eq_nil_iff]
      intro li hli2
      have := hInv.liRefsBound li hli2
      simp only [decide_eq_true_eq]
      omega
    have hrows : rows.filter
        (fun li => decide (li.journal_entry_id = id)) = rows := by
      rw [List.filter_eq_self]
      intro li hli2
      simp only [decide_eq_true_eq]
      exact hrefs li hli2
    rw [hold, hrows, List.nil_append, List.map_map, ← hmap]
    rfl

/-- C4 witness: the lowercase sample entry round-trips through `add`
and `getById` on a fresh store. -/
theorem c4_witness :
    add (init_database none) sampleEntry = .ok (sampleAdded, 1) ∧
    ∃ r, get_by_id sampleAdded 1 = some r ∧
      r.line_items.map (fun li => (li.account, li.debit, li.credit)) =
        sampleEntry.line_items.map
          (fun it => (lowerStr it.account, it.debit, it.credit)) :=
  ⟨by decide, c4_roundtrip_lowercased (init_database none) sampleEntry
    sampleAdded 1 Reachable.init (by decide)⟩

/-- C8 counterexample: the storage layer's `init_database` on a path
holding a non-empty store does not fail — it has no failure outcome at
all (`CREATE ... IF NOT EXISTS` throughout) — and returns the store
unchanged, rather than failing with an `AlreadyExists` error as the
claim states. -/
theorem c8_counterexample :
    init_database (some sampleAdded) = sampleAdded ∧
    sampleAdded.journal_entries ≠ [] := by
  decide

/-- C8 (amended): when a store already exists at the path, the
storage-layer `init_database` succeeds and leaves the store unchanged
(its schema creation is idempotent); the `AlreadyExists` rejection is
performed by the CLI `init` command, which exits with code 1 and does
not touch the store; a new empty store is created only when none
exists. -/
theorem c8_init_on_existing_store (db : DB) (h : Reachable db) :
    init_database (some db) = db ∧
    cmd_init (some db) = (1, db) ∧
    (init_database none).journal_entries = [] ∧
    (init_database none).line_items = [] ∧
    (init_database none).accounts = [] := by
  have htrig := (reachable_inv db h).trig
  refine ⟨?_, rfl, rfl, rfl, rfl⟩
  show _init_db db = db
  unfold _init_db
  cases db with
  | mk je li acc nj nl na tr =>
    simp only at htrig
    rw [htrig]

/-- C8 witness: re-initialising the path of the concrete one-entry
store leaves it unchanged, and the CLI init command rejects it with
exit code 1. -/
theorem c8_witness :
    init_database (some sampleAdded) = sampleAdded ∧
    cmd_init (some sampleAdded) = (1, sampleAdded) ∧
    (init_database none).journal_entries = [] ∧
    (init_database none).line_items = [] ∧
    (init_database none).accounts = [] :=
  c8_init_on_existing_store sampleAdded
    (Reachable.add_ok (init_database none) sampleEntry sampleAdded 1
      Reachable.init (by decide))

/-- C10: parsing rejects only an empty input, an empty first segment or
an unrecognised root — whenever the first trimmed segment of the
lowered input is a recognised root, parsing succeeds and returns the
full split, including any empty later segments; `ensureAccount` then
creates an account row for every prefix, producing stored names that
contain empty segments. -/
theorem c10_parse_allows_empty_segments (name : Str) (db : DB)
    (hreach : Reachable db)
    (hroot : ACCOUNT_TYPES.lookup
      (((splitColon (lowerStr name)).map trimStr).headD []) ≠ none) :
    (∃ t, parse_account_path name =
      .ok (t, (splitColon (lowerStr name)).map trimStr)) ∧
    ∃ db', _ensure_account db name = .ok db' ∧
      ∀ k, 1 ≤ k → k ≤ ((splitColon (lowerStr name)).map trimStr).length →
        ∃ a, a ∈ db'.accounts ∧
          a.name = joinColon (((splitColon (lowerStr name)).map trimStr).take k) := by
  have hroot2 : ((splitColon (lowerStr name)).map trimStr).headD [] ≠ [] := by
    intro hnil
    rw [hnil] at hroot
    exact hroot (by decide)
  have hlk : ∃ t, ACCOUNT_TYPES.lookup
      (((splitColon (lowerStr name)).map trimStr).headD []) = some t := by
    cases hl : ACCOUNT_TYPES.lookup
        (((splitColon (lowerStr name)).map trimStr).headD []) with
    | none => exact absurd hl hroot
    | some t => exact ⟨t, rfl⟩
  obtain ⟨t, hparse⟩ := parse_ok_of_root name hroot2 hlk
  have hlow : lowerStr (lowerStr name) = lowerStr name := lowerStr_lowerStr name
  obtain ⟨t2, hparse2⟩ := parse_ok_of_root (lowerStr name)
    (by rw [hlow]; exact hroot2) (by rw [hlow]; exact hlk)
  rw [hlow] at hparse2
  refine ⟨⟨t, hparse⟩, ?_⟩
  have hInv := reachable_inv db hreach
  obtain ⟨-, hne, hcf, -, hlk2⟩ := parse_ok_parts _ _ _ hparse2
  unfold _ensure_account
  rw [hparse2]
  dsimp only
  refine ⟨_, rfl, ?_⟩
  have hout := ensureLoop_out t2 _ db hne hcf hlk2 hInv.accNamesU hInv.accGood
    ((splitColon (lowerStr name)).map trimStr).length (Nat.le_refl _)
  intro k hk1 hk2
  exact hout.pres k hk1 hk2

/-- The store after `_ensure_account` of `assets::cash` (an account
path with an empty middle segment) on a fresh store. -/
def emptySegEnsured : DB :=
  match _ensure_account (init_database none) (("assets::cash").toList) with
  | .ok d => d
  | .error _ => init_database none

/-- C10 witness: `assets::cash` parses (with an empty middle segment)
and `ensureAccount` creates an account literally named
`assets::cash`. -/
theorem c10_witness :
    (∃ t, parse_account_path (("assets::cash").toList) =
      .ok (t, (splitColon (lowerStr (("assets::cash").toList))).map trimStr)) ∧
    _ensure_account (init_database none) (("assets::cash").toList) =
      .ok emptySegEnsured ∧
    ∃ a, a ∈ emptySegEnsured.accounts ∧ a.name = ("assets::cash").toList := by
  have h := c10_parse_allows_empty_segments (("assets::cash").toList)
    (init_database none) Reachable.init (by decide)
  refine ⟨h.1, by decide, ?_⟩
  obtain ⟨db', hens, hk⟩ := h.2
  have h2 : _ensure_account (init_database none) (("assets::cash").toList) =
      .ok emptySegEnsured := by decide
  rw [hens, Except.ok.injEq] at h2
  subst h2
  obtain ⟨a, ha, han⟩ := hk 3 (by decide) (by decide)
  refine ⟨a, ha, ?_⟩
  rw [han]
  decide

/-! ## `LIKE` patterns without wildcards are prefix tests -/

theorem likeFuel_percent_end (fuel : Nat) :
    ∀ q t : Str, (∀ c ∈ q, c ≠ '%' ∧ c ≠ '_') →
    q.length + t.length + 2 ≤ fuel →
    likeFuel fuel (q ++ ['%']) t = (lowerStr q).isPrefixOf (lowerStr t) := by
  induction fuel with
  | zero =>
    intro q t _ h
    omega
  | succ f ih =>
    intro q t hq hfuel
    cases q with
    | nil =>
      cases t with
      | nil =>
        cases f with
        | zero => omega
        | succ f2 => simp [likeFuel, lowerStr, List.isPrefixOf]
      | cons c cs =>
        have h1 : likeFuel (f + 1) ([] ++ ['%']) (c :: cs) =
            (likeFuel f [] (c :: cs) || likeFuel f ('%' :: []) cs) := by
          simp [likeFuel]
        rw [h1]
        have h2 : likeFuel f [] (c :: cs) = false := by
          cases f with
          | zero => simp [likeFuel]
          | succ f2 => simp [likeFuel]
        have h3 : likeFuel f ('%' :: []) cs =
            (lowerStr []).isPrefixOf (lowerStr cs) := by
          have := ih [] cs (by simp) (by simp at hfuel ⊢; omega)
          simpa using this
        rw [h2, h3]
        simp [lowerStr, List.isPrefixOf]
    | cons a as =>
      have ha := hq a (List.mem_cons_self a as)
      have has : ∀ c ∈ as, c ≠ '%' ∧ c ≠ '_' :=
        fun c hc => hq c (List.mem_cons_of_mem a hc)
      rw [List.cons_append]
      cases t with
      | nil =>
        show likeFuel (f + 1) (a :: (as ++ ['%'])) [] = _
        simp [likeFuel, if_neg ha.1, lowerStr, List.isPrefixOf]
      | cons b bs =>
        have hstep : likeFuel (f + 1) (a :: (as ++ ['%'])) (b :: bs) =
            ((lowerChar a = lowerChar b) && likeFuel f (as ++ ['%']) bs) := by
          simp [likeFuel, if_neg ha.1, if_neg ha.2]
        rw [hstep]
        have hih := ih as bs has (by simp at hfuel ⊢; omega)
        by_cases hab : lowerChar a = lowerChar b <;>
          simp [hab, hih, lowerStr, List.isPrefixOf]

/-- For paths free of the `LIKE` wildcard characters, the code's
`account = p OR account LIKE p || ':%'` filter coincides with the
specification's exact-or-descendant rule (given lowercased operands,
which is how the store and the query use them). -/
theorem accountFilter_eq_spec (p acct : Str)
    (hp : ∀ c ∈ p, c ≠ '%' ∧ c ≠ '_')
    (hlp : lowerStr p = p) (hacct : lowerStr acct = acct) :
    accountFilter p acct = specDescendantMatch p acct := by
  unfold accountFilter specDescendantMatch likeMatch
  have hassoc : p ++ [':', '%'] = (p ++ [':']) ++ ['%'] := by simp
  rw [hassoc]
  have hq : ∀ c ∈ p ++ [':'], c ≠ '%' ∧ c ≠ '_' := by
    intro c hc
    rcases List.mem_append.mp hc with hc | hc
    · exact hp c hc
    · rw [List.mem_singleton] at hc
      subst hc
      exact ⟨by decide, by decide⟩
  have hfuel : (p ++ [':']).length + acct.length + 2 ≤
      ((p ++ [':']) ++ ['%']).length + acct.length + 1 := by
    simp only [List.length_append, List.length_cons, List.length_nil]
    omega
  rw [likeFuel_percent_end _ (p ++ [':']) acct hq hfuel]
  have hlcolon : lowerStr (p ++ [':']) = p ++ [':'] := by
    unfold lowerStr
    rw [List.map_append]
    unfold lowerStr at hlp
    rw [hlp]
    have hc : List.map lowerChar [':'] = [':'] := by decide
    rw [hc]
  rw [hlcolon, hacct]

/-! ## Sorting lemmas for `ORDER BY timestamp DESC` -/

theorem mem_insertTsDesc (x y : JournalRow) (l : List JournalRow) :
    x ∈ insertTsDesc y l ↔ x = y ∨ x ∈ l := by
  induction l with
  | nil => simp [insertTsDesc]
  | cons z zs ih =>
    unfold insertTsDesc
    by_cases hz : decide (z.timestamp < y.timestamp) = true
    · rw [if_pos hz]
      simp [or_comm, or_assoc, or_left_comm]
    · rw [if_neg hz]
      simp only [List.mem_cons, ih]
      tauto

theorem perm_insertTsDesc (y : JournalRow) (l : List JournalRow) :
    (insertTsDesc y l).Perm (y :: l) := by
  induction l with
  | nil => simp [insertTsDesc]
  | cons z zs ih =>
    unfold insertTsDesc
    by_cases hz : decide (z.timestamp < y.timestamp) = true
    · rw [if_pos hz]
    · rw [if_neg hz]
      exact (ih.cons z).trans (List.Perm.swap y z zs)

theorem perm_sortTsDesc (l : List JournalRow) : (sortTsDesc l).Perm l := by
  have hgen : ∀ acc : List JournalRow,
      (l.foldl (fun acc r => insertTsDesc r acc) acc).Perm (acc ++ l) := by
    induction l with
    | nil => intro acc; simp
    | cons r rs ih =>
      intro acc
      have h1 := ih (insertTsDesc r acc)
      have h2 : (insertTsDesc r acc ++ rs).Perm (acc ++ r :: rs) := by
        have hp := (perm_insertTsDesc r acc).append_right rs
        refine hp.trans ?_
        exact List.perm_middle.symm
      exact h1.trans h2
  simpa [sortTsDesc] using hgen []

theorem pairwise_insertTsDesc (y : JournalRow) (l : List JournalRow)
    (h : l.Pairwise (fun a b => ¬ a.timestamp < b.timestamp)) :
    (insertTsDesc y l).Pairwise (fun a b => ¬ a.timestamp < b.timestamp) := by
  induction l with
  | nil => simp [insertTsDesc]
  | cons z zs ih =>
    rw [List.pairwise_cons] at h
    obtain ⟨hz, hzs⟩ := h
    unfold insertTsDesc
    by_cases hlt : decide (z.timestamp < y.timestamp) = true
    · rw [if_pos hlt]
      rw [decide_eq_true_eq] at hlt
      rw [List.pairwise_cons]
      refine ⟨?_, List.pairwise_cons.mpr ⟨hz, hzs⟩⟩
      intro w hw
      rcases List.mem_cons.mp hw with hw | hw
      · subst hw
        exact lt_asymm hlt
      · have hwz : w.timestamp ≤ z.timestamp := le_of_not_lt (hz w hw)
        exact lt_asymm (lt_of_le_of_lt hwz hlt)
    · rw [if_neg hlt]
      rw [decide_eq_true_eq] at hlt
      rw [List.pairwise_cons]
      refine ⟨?_, ih hzs⟩
      intro w hw
      rcases (mem_insertTsDesc w y zs).mp hw with hw | hw
      · subst hw
        exact hlt
      · exact hz w hw

theorem pairwise_sortTsDesc (l : List JournalRow) :
    (sortTsDesc l).Pairwise (fun a b => ¬ a.timestamp < b.timestamp) := by
  have hgen : ∀ acc : List JournalRow,
      acc.Pairwise (fun a b => ¬ a.timestamp < b.timestamp) →
      (l.foldl (fun acc r => insertTsDesc r acc) acc).Pairwise
        (fun a b => ¬ a.timestamp < b.timestamp) := by
    induction l with
    | nil => intro acc h; simpa using h
    | cons r rs ih =>
      intro acc h
      exact ih (insertTsDesc r acc) (pairwise_insertTsDesc r acc h)
  exact hgen [] (by simp)

theorem mem_dedup {α : Type} [DecidableEq α] (a : α) (l : List α) :
    a ∈ dedup l ↔ a ∈ l := by
  induction l with
  | nil => simp [dedup]
  | cons x xs ih =>
    unfold dedup
    by_cases hx : x ∈ dedup xs
    · rw [if_pos hx]
      rw [ih]
      constructor
      · intro h
        exact List.mem_cons_of_mem x h
      · intro h
        rcases List.mem_cons.mp h with h | h
        · subst h
          exact ih.mp hx
        · exact h
    · rw [if_neg hx]
      simp [ih]

theorem mem_matchingEntryIds (db : DB) (acct : Str) (n : Nat) :
    n ∈ matchingEntryIds db acct ↔
      ∃ li, li ∈ db.line_items ∧ accountFilter acct li.account = true ∧
        li.journal_entry_id = n := by
  unfold matchingEntryIds
  rw [mem_dedup, List.mem_map]
  constructor
  · intro ⟨li, hli, hn⟩
    obtain ⟨hmem, hfil⟩ := List.mem_filter.mp hli
    exact ⟨li, hmem, hfil, hn⟩
  · intro ⟨li, hmem, hfil, hn⟩
    exact ⟨li, List.mem_filter.mpr ⟨hmem, hfil⟩, hn⟩

/-- C7 (amended, for paths free of the `LIKE` wildcard characters `%`
and `_`): `getByAccount` lowercases the path and returns exactly the
distinct journal entries having at least one line item whose account
equals the lowered path exactly or starts with it followed by `:`,
ordered by timestamp descending (entries with equal timestamps in an
engine-chosen order). -/
theorem c7_get_by_account_descendants (db : DB) (hreach : Reachable db)
    (p : Str) (hp : ∀ c ∈ p, c ≠ '%' ∧ c ≠ '_') :
    (∀ en, en ∈ get_by_account db p ↔
      ∃ row, row ∈ db.journal_entries ∧ en = _load_entry db row ∧
        ∃ li, li ∈ db.line_items ∧ li.journal_entry_id = row.id ∧
          specDescendantMatch (lowerStr p) li.account = true) ∧
    (get_by_account db p).Pairwise (fun a b => ¬ a.timestamp < b.timestamp) ∧
    ((get_by_account db p).map JournalEntry.id).Nodup := by
  have hInv := reachable_inv db hreach
  have hpt : ∀ li, li ∈ db.line_items →
      accountFilter (lowerStr p) li.account =
        specDescendantMatch (lowerStr p) li.account := by
    intro li hli
    apply accountFilter_eq_spec
    · intro c hc
      obtain ⟨c0, hc0, rfl⟩ := List.mem_map.mp hc
      exact ⟨lowerChar_ne_wild c0 '%' (by decide) (hp c0 hc0).1,
        lowerChar_ne_wild c0 '_' (by decide) (hp c0 hc0).2⟩
    · exact lowerStr_lowerStr p
    · exact hInv.liAccLower li hli
  have hids : ∀ n, n ∈ matchingEntryIds db (lowerStr p) ↔
      ∃ li, li ∈ db.line_items ∧ li.journal_entry_id = n ∧
        specDescendantMatch (lowerStr p) li.account = true := by
    intro n
    rw [mem_matchingEntryIds]
    constructor
    · intro ⟨li, hmem, hfil, hn⟩
      exact ⟨li, hmem, hn, by rw [← hpt li hmem]; exact hfil⟩
    · intro ⟨li, hmem, hn, hfil⟩
      exact ⟨li, hmem, by rw [hpt li hmem]; exact hfil, hn⟩
  unfold get_by_account
  by_cases hnil : matchingEntryIds db (lowerStr p) = []
  · rw [if_pos hnil]
    refine ⟨?_, by simp, by simp⟩
    intro en
    simp only [List.not_mem_nil, false_iff]
    intro ⟨row, hrow, hen, li, hli, hje, hfil⟩
    have : row.id ∈ matchingEntryIds db (lowerStr p) :=
      (hids row.id).mpr ⟨li, hli, hje, hfil⟩
    rw [hnil] at this
    cases this
  · rw [if_neg hnil]
    refine ⟨?_, ?_, ?_⟩
    · intro en
      rw [List.mem_map]
      constructor
      · intro ⟨row, hrow, hen⟩
        rw [(perm_sortTsDesc _).mem_iff, List.mem_filter] at hrow
        obtain ⟨hmem, hid⟩ := hrow
        rw [decide_eq_true_eq, hids] at hid
        obtain ⟨li, hli, hje, hfil⟩ := hid
        exact ⟨row, hmem, hen.symm, li, hli, hje, hfil⟩
      · intro ⟨row, hrow, hen, li, hli, hje, hfil⟩
        refine ⟨row, ?_, hen.symm⟩
        rw [(perm_sortTsDesc _).mem_iff, List.mem_filter]
        refine ⟨hrow, ?_⟩
        rw [decide_eq_true_eq, hids]
        exact ⟨li, hli, hje, hfil⟩
    · have hps := pairwise_sortTsDesc (db.journal_entries.filter
        (fun r => decide (r.id ∈ matchingEntryIds db (lowerStr p))))
      exact List.pairwise_map.mpr (hps.imp (fun h => h))
    · have hpw : (db.journal_entries.filter
          (fun r => decide (r.id ∈ matchingEntryIds db (lowerStr p)))).Pairwise
          (fun a b => a.id ≠ b.id) := hInv.jrIdsU.filter _
      have hpw2 := ((perm_sortTsDesc _).pairwise_iff
        (fun {a b} (h : a.id ≠ b.id) => Ne.symm h)).mpr hpw
      have hmapped : ((sortTsDesc (db.journal_entries.filter
          (fun r => decide (r.id ∈ matchingEntryIds db (lowerStr p))))).map
          (_load_entry db)).Pairwise
          (fun a b => a.id ≠ b.id) :=
        List.pairwise_map.mpr (hpw2.imp (fun {a b} h hc => h (Option.some.inj hc)))
      unfold List.Nodup
      rw [List.pairwise_map]
      exact hmapped

/-- C7 witness: on the concrete one-entry store, the entry (which
debits `assets:cash`) is returned by `getByAccount("assets")`. -/
theorem c7_witness :
    _load_entry sampleAdded ⟨1, "Test", "2024-01-15T10:30:00"⟩ ∈
      get_by_account sampleAdded (("assets").toList) := by
  have h := c7_get_by_account_descendants sampleAdded
    (Reachable.add_ok (init_database none) sampleEntry sampleAdded 1
      Reachable.init (by decide))
    (("assets").toList) (by decide)
  exact (h.1 _).mpr ⟨⟨1, "Test", "2024-01-15T10:30:00"⟩, by decide, rfl,
    ⟨1, 1, ("assets:cash").toList, some ⟨5000, -2⟩, none⟩, by decide, by decide,
    by decide⟩

/-- C7 counterexample: for the path `a_sets`, whose underscore is a
`LIKE` single-character wildcard, `getByAccount` returns the stored
entry although no line item's account equals `a_sets` or starts with
`a_sets:` — the claim's rule for every path argument is violated. -/
theorem c7_counterexample :
    get_by_account sampleAdded (("a_sets").toList) ≠ [] ∧
    sampleAdded.line_items.filter
      (fun li => specDescendantMatch (lowerStr (("a_sets").toList)) li.account) = [] := by
  decide

/-! ## C3: the trial balance and floating point -/

/-- An entry debiting `0.1` to `assets:cash`. -/
def dimeEntry : JournalEntry :=
  { description := "Dime", timestamp := "2024-01-01T00:00:00"
    line_items := [
      { account := ("assets:cash").toList, debit := some ⟨1, -1⟩ },
      { account := ("income:revenue").toList, credit := some ⟨1, -1⟩ }] }

/-- An entry debiting `0.2` to `assets:cash`. -/
def twoDimeEntry : JournalEntry :=
  { description := "Two dimes", timestamp := "2024-01-02T00:00:00"
    line_items := [
      { account := ("assets:cash").toList, debit := some ⟨2, -1⟩ },
      { account := ("income:revenue").toList, credit := some ⟨2, -1⟩ }] }

/-- The store holding the `0.1` and `0.2` entries. -/
def dimesDB : DB :=
  match add (init_database none) dimeEntry with
  | .ok p =>
    (match add p.1 twoDimeEntry with
     | .ok q => q.1
     | .error _ => p.1)
  | .error _ => init_database none

/-- C3: the trial balance is computed as `SUM(CAST(debit AS REAL))`, a
binary64 floating-point sum.  On the store holding debits `0.1` and
`0.2` against `assets:cash`, the REAL total is the binary64 value
`5404319552844596 / 2^54` (the float `0.30000000000000004`), which
differs from the exact decimal sum `0.3` of the stored amounts — and
also differs from the binary64 reading of `0.3`, so the final
`Decimal(str(total))` step, which preserves the float's value through
its shortest decimal representation, cannot restore `0.3` either.  The
claim that totals equal the exact decimal sums is false of the code. -/
theorem c3_trial_balance_uses_floats :
    ((get_trial_balance dimesDB none).lookup (("assets:cash").toList)).map
        (fun pr => pr.1.toRat) =
      some (Rat.divInt 5404319552844596 (2 ^ 54)) ∧
    specExactDebitTotal dimesDB (("assets:cash").toList) = 3 / 10 ∧
    Rat.divInt 5404319552844596 (2 ^ 54) ≠ (3 / 10 : ℚ) ∧
    (roundFloat ⟨3, 10⟩).toRat ≠ Rat.divInt 5404319552844596 (2 ^ 54) := by
  refine ⟨by decide, ?_, ?_, by decide⟩
  · have hlist : (dimesDB.line_items.filter
        (fun li => decide (li.account = ("assets:cash").toList))).map
        (fun li => match li.debit with | some d => d.val | none => 0) =
        [Dec.val ⟨1, -1⟩, Dec.val ⟨2, -1⟩] := by rfl
    unfold specExactDebitTotal
    rw [hlist]
    norm_num [Dec.val, List.sum_cons, List.sum_nil]
  · rw [Rat.divInt_eq_div]
    push_cast
    norm_num

end Bozo
